import Mathlib

/-!
Verification development for the SAGE progressive content loader and its
bundled plugins (content cache, TF-IDF semantic search).

Python sources embedded here:
- src/sage/plugins/bundled/semantic_search.py  (SemanticSearchPlugin)
- src/sage/plugins/bundled/cache_plugin.py     (ContentCachePlugin)
- src/sage/core/models.py                      (LoadStatus)

The loader orchestrator itself (sage/core/loader.py: KnowledgeLoader with its
fingerprint cache, timeout budget allocator and circuit breaker) is not part
of the source tree; those components are modelled from the specification and
are marked as such in their doc comments.

Modelling conventions:
- Python dicts (insertion ordered) are association lists `List (String × β)`;
  updates replace the first matching key in place, fresh keys append at the end.
- Python `collections.Counter` values are association lists with integer
  counts; a missing key reads as zero.
- Python floats are modelled as exact rationals `ℚ`; `math.log` and
  `math.sqrt` are uninterpreted function parameters (their floating point
  values are not modelled, and no claim here depends on them).
- MD5 digests are an uninterpreted function parameter.
- Wall-clock instants (`time.time()`) are explicit `ℚ` arguments.
-/

namespace Sage

/-- Uninterpreted stand-ins for `math.log` and `math.sqrt` over our rational
model of Python floats. -/
structure RealOps where
  log : ℚ → ℚ
  sqrt : ℚ → ℚ

/-- Identity instantiation of the uninterpreted float operations, used to
evaluate the model on concrete inputs. -/
def idOps : RealOps := ⟨fun x => x, fun x => x⟩

/-! ### Ordered dictionaries and counters as association lists -/

/-- Lookup of the first entry with the given key (Python dict access). -/
def dictFind (m : List (String × β)) (k : String) : Option β :=
  (m.find? (fun p => p.1 == k)).map Prod.snd

/-- Python `k in d` membership test. -/
def dictHas (m : List (String × β)) (k : String) : Bool :=
  m.any (fun p => p.1 == k)

/-- Python `d[k] = v`: replace the first entry with key `k` in place, or
append a fresh entry at the end (dicts preserve insertion order). -/
def dictSet : List (String × β) → String → β → List (String × β)
  | [], k, v => [(k, v)]
  | e :: rest, k, v => if e.1 == k then (k, v) :: rest else e :: dictSet rest k v

/-- Python `del d[k]` / the removal part of `d.pop(k)`: drop the first entry
with key `k`. -/
def removeKey : List (String × β) → String → List (String × β)
  | [], _ => []
  | e :: rest, k => if e.1 == k then rest else e :: removeKey rest k

/-- Counter read `c[k]` where a missing key counts as zero. -/
def counterGet (m : List (String × ℤ)) (k : String) : ℤ :=
  (dictFind m k).getD 0

/-- Counter update `c[k] += d` (a missing key is materialised from zero, at
the end of the dict, exactly as `Counter.__missing__` plus assignment does). -/
def counterIncr : List (String × ℤ) → String → ℤ → List (String × ℤ)
  | [], k, d => [(k, d)]
  | e :: rest, k, d => if e.1 == k then (e.1, e.2 + d) :: rest else e :: counterIncr rest k d

/-- Natural-number counter update, used for `Counter(terms)` construction. -/
def counterBump : List (String × ℕ) → String → List (String × ℕ)
  | [], k => [(k, 1)]
  | e :: rest, k => if e.1 == k then (e.1, e.2 + 1) :: rest else e :: counterBump rest k

/-- Python `Counter(terms)`: term multiplicities in first-occurrence order. -/
def counterOf (ts : List String) : List (String × ℕ) :=
  ts.foldl counterBump []

/-- Multiplicity read on a natural-number counter. -/
def counterOfGet (m : List (String × ℕ)) (k : String) : ℕ :=
  (dictFind m k).getD 0

/-! ### SemanticSearchPlugin: data model (semantic_search.py) -/

/-- SearchConfig dataclass from semantic_search.py, with the defaults from the
source (`min_term_length=2`, `max_results=20`, `score_threshold=0.1`,
`use_stemming=False` and the stopword list installed by `__post_init__`).
Sizes configured as non-negative ints are modelled as `ℕ`. -/
structure SearchConfig where
  min_term_length : ℕ := 2
  max_results : ℕ := 20
  score_threshold : ℚ := 1 / 10
  use_stemming : Bool := false
  stopwords : List String :=
    ["a", "an", "the", "and", "or", "but", "in", "on", "at",
     "to", "for", "of", "with", "by", "from", "is", "are",
     "was", "were", "be", "been", "being", "have", "has",
     "had", "do", "does", "did", "will", "would", "could",
     "should", "may", "might", "must", "shall", "can",
     "this", "that", "these", "those", "it", "its"]
deriving DecidableEq

/-- SearchDocument dataclass. `metadata` values are opaque payload in the
source (`dict[str, Any]`); they are modelled as strings. `terms` is the
`Counter` of document terms and `term_frequencies` the rational tf map. -/
structure SearchDocument where
  id : String
  content : String
  title : String := ""
  layer : String := ""
  path : String := ""
  metadata : List (String × String) := []
  terms : List (String × ℕ) := []
  term_frequencies : List (String × ℚ) := []
deriving DecidableEq

/-- SearchResult dataclass from semantic_search.py. -/
structure SearchResult where
  document : SearchDocument
  score : ℚ
  matched_terms : List String := []
deriving DecidableEq

/-- Mutable state of SemanticSearchPlugin: `_documents`, the
`_document_frequencies` Counter, `_total_documents` and `_enabled`. -/
structure SearchState where
  config : SearchConfig := {}
  documents : List (String × SearchDocument) := []
  document_frequencies : List (String × ℤ) := []
  total_documents : ℤ := 0
  enabled : Bool := true
deriving DecidableEq

/-! ### Tokenisation (`SemanticSearchPlugin._tokenize` and `_stem`) -/

/-- Characters matched by the `[a-z0-9]` class of the token regex. -/
def isTermChar (c : Char) : Bool :=
  ('a' ≤ c && c ≤ 'z') || c.isDigit

/-- Word characters for the `\b` boundaries of the token regex. Python's
`\w` covers `[a-zA-Z0-9_]` plus non-ASCII word characters; the text is
lowercased before matching, and non-ASCII word characters are approximated
by the ASCII alphanumeric test. -/
def isWordChar (c : Char) : Bool :=
  c.isAlphanum || c = '_'

/-- Scanner behind the matches of `re.findall(r"\b[a-z0-9]+\b", text)`:
`cur` is the reversed run of term characters currently open and `okL` records
whether the character before that run (when any) was a non-word character,
i.e. whether the run starts at a word boundary. A run is emitted exactly when
it is non-empty and both neighbours (when present) are non-word characters. -/
def termScan (cur : List Char) (okL : Bool) : List Char → List String
  | [] => if cur.isEmpty = false && okL then [String.mk cur.reverse] else []
  | c :: cs =>
    if isTermChar c then termScan (c :: cur) okL cs
    else
      (if cur.isEmpty = false && okL && !isWordChar c then [String.mk cur.reverse]
       else [])
        ++ termScan [] (!isWordChar c) cs

/-- All matches of `re.findall(r"\b[a-z0-9]+\b", text)`: maximal runs of
term characters whose neighbours (when present) are not word characters. -/
def findTerms (l : List Char) : List String := termScan [] true l

/-- Suffix list of `SemanticSearchPlugin._stem`. -/
def stemSuffixes : List String :=
  ["ing", "ed", "er", "est", "ly", "tion", "ness"]

/-- Basic suffix stripping of `SemanticSearchPlugin._stem`: the first listed
suffix of the word with `len(word) > len(suffix) + 2` is removed. -/
def stem (w : String) : String :=
  match stemSuffixes.find? (fun s => s.data.isSuffixOf w.data && s.length + 2 < w.length) with
  | some s => String.mk (w.data.take (w.length - s.length))
  | none => w

/-- SemanticSearchPlugin._tokenize: lowercase, extract `[a-z0-9]+` words at
word boundaries, drop short terms and stopwords, optionally stem. -/
def tokenize (cfg : SearchConfig) (text : String) : List String :=
  let words := findTerms (text.data.map Char.toLower)
  let terms := words.filter
    (fun w => cfg.min_term_length ≤ w.length && !(cfg.stopwords.contains w))
  if cfg.use_stemming then terms.map stem else terms

/-! ### Indexing (`index_document`, `remove_document`) -/

/-- Construction of the SearchDocument inside `index_document`: tokenize the
content, extend with the title terms twice (title weighted higher), build the
term Counter and the rational term-frequency map. -/
def mkDocument (cfg : SearchConfig) (doc_id content title layer path : String)
    (metadata : List (String × String)) : SearchDocument :=
  let titleTerms := if title ≠ "" then tokenize cfg title else []
  let terms := tokenize cfg content ++ titleTerms ++ titleTerms
  let tc := counterOf terms
  let total := terms.length
  { id := doc_id
    content := content
    title := title
    layer := layer
    path := path
    metadata := metadata
    terms := tc
    term_frequencies :=
      if 0 < total then tc.map (fun p => (p.1, (p.2 : ℚ) / (total : ℚ))) else [] }

/-- SemanticSearchPlugin.index_document: build the document, retract the old
document's contribution to the document frequencies when the id is already
indexed (else bump the total), then add the new contributions and store the
document. -/
def indexDocument (st : SearchState) (doc_id content title layer path : String)
    (metadata : List (String × String)) : SearchState :=
  let doc := mkDocument st.config doc_id content title layer path metadata
  let retracted : List (String × ℤ) × ℤ :=
    match dictFind st.documents doc_id with
    | some old =>
      ((old.terms.map Prod.fst).foldl (fun m t => counterIncr m t (-1))
         st.document_frequencies,
       st.total_documents)
    | none => (st.document_frequencies, st.total_documents + 1)
  let df := (doc.terms.map Prod.fst).foldl (fun m t => counterIncr m t 1) retracted.1
  { st with
    documents := dictSet st.documents doc_id doc
    document_frequencies := df
    total_documents := retracted.2 }

/-- Per-term step of `remove_document`: decrement the document frequency and
delete the entry when it has dropped to zero or below. -/
def dfRetract (m : List (String × ℤ)) (t : String) : List (String × ℤ) :=
  let m1 := counterIncr m t (-1)
  if counterGet m1 t ≤ 0 then removeKey m1 t else m1

/-- SemanticSearchPlugin.remove_document: pop the document if present,
decrement the total and retract its term contributions; returns whether a
document was removed. -/
def removeDocument (st : SearchState) (doc_id : String) : Bool × SearchState :=
  match dictFind st.documents doc_id with
  | none => (false, st)
  | some doc =>
    (true,
     { st with
       documents := removeKey st.documents doc_id
       total_documents := st.total_documents - 1
       document_frequencies :=
         (doc.terms.map Prod.fst).foldl dfRetract st.document_frequencies })

/-! ### Scoring and search (`_calculate_idf`, `_calculate_query_vector`,
`_calculate_similarity`, `search`) -/

/-- SemanticSearchPlugin._calculate_idf: zero when there are no documents or
the term is unseen, else `log(total/doc_freq) + 1`. -/
def calcIdf (ops : RealOps) (st : SearchState) (term : String) : ℚ :=
  if st.total_documents = 0 then 0
  else
    let doc_freq := counterGet st.document_frequencies term
    if doc_freq = 0 then 0
    else ops.log ((st.total_documents : ℚ) / (doc_freq : ℚ)) + 1

/-- SemanticSearchPlugin._calculate_query_vector: tf–idf weight per distinct
query term, in first-occurrence order. -/
def calcQueryVector (ops : RealOps) (st : SearchState) (query_terms : List String) :
    List (String × ℚ) :=
  (counterOf query_terms).map
    (fun p => (p.1, ((p.2 : ℚ) / (query_terms.length : ℚ)) * calcIdf ops st p.1))

/-- SemanticSearchPlugin._calculate_similarity: cosine similarity of the query
vector and the document's tf–idf vector, together with the matched terms in
query-vector order. -/
def calcSimilarity (ops : RealOps) (st : SearchState) (qv : List (String × ℚ))
    (doc : SearchDocument) : ℚ × List String :=
  let acc := qv.foldl
    (fun (a : ℚ × ℚ × List String) p =>
      let qn := a.2.1 + p.2 * p.2
      match dictFind doc.term_frequencies p.1 with
      | some tf => (a.1 + p.2 * (tf * calcIdf ops st p.1), qn, a.2.2 ++ [p.1])
      | none => (a.1, qn, a.2.2))
    (0, 0, [])
  let doc_norm := doc.term_frequencies.foldl
    (fun (n : ℚ) q =>
      let w := q.2 * calcIdf ops st q.1
      n + w * w)
    0
  if acc.2.1 = 0 ∨ doc_norm = 0 then (0, acc.2.2)
  else (acc.1 / (ops.sqrt acc.2.1 * ops.sqrt doc_norm), acc.2.2)

/-- Comparison used by `results.sort(key=lambda r: r.score, reverse=True)`:
descending by score (the Lean sort, like Python's, is stable). -/
def scoreGe (a b : SearchResult) : Bool := decide (b.score ≤ a.score)

/-- SemanticSearchPlugin.search: empty when disabled, when no documents are
indexed or when the query tokenises to no terms; otherwise score every
document, keep scores at or above the threshold, sort by descending score
(a stable sort, as Python's) and truncate to `max_results`. -/
def search (ops : RealOps) (st : SearchState) (query : String) : List SearchResult :=
  if st.enabled = false ∨ st.documents = [] then []
  else
    let query_terms := tokenize st.config query
    if query_terms = [] then []
    else
      let qv := calcQueryVector ops st query_terms
      let results := (st.documents.map
        (fun p =>
          let sm := calcSimilarity ops st qv p.2
          SearchResult.mk p.2 sm.1 sm.2)).filter
        (fun r => st.config.score_threshold ≤ r.score)
      (results.mergeSort scoreGe).take st.config.max_results

/-! ### ContentCachePlugin: data model (cache_plugin.py) -/

/-- CacheEntry dataclass from cache_plugin.py; `created_at` and
`last_accessed` are wall-clock instants. -/
structure CacheEntry where
  key : String
  value : String
  size_bytes : ℕ
  created_at : ℚ
  last_accessed : ℚ
  access_count : ℕ := 0
deriving DecidableEq

/-- CacheStats dataclass from cache_plugin.py. `total_size_bytes` and
`entry_count` are Python ints that the code both increments and decrements,
so they are modelled as `ℤ`. -/
structure CacheStats where
  hits : ℕ := 0
  misses : ℕ := 0
  evictions : ℕ := 0
  total_size_bytes : ℤ := 0
  entry_count : ℤ := 0
deriving DecidableEq

/-- Configuration fields of ContentCachePlugin. The claims under proof hold
the configuration fixed (no `configure`/`on_disable` in the operation
sequences), so it is passed as a parameter rather than carried in the state.
Defaults: 1000 entries, 50 MiB, 3600 s TTL, enabled. -/
structure CacheCfg where
  max_entries : ℕ := 1000
  max_size_bytes : ℕ := 50 * 1024 * 1024
  ttl_seconds : ℚ := 3600
  enabled : Bool := true
deriving DecidableEq

/-- Mutable state of ContentCachePlugin: the ordered `_cache` (least recently
used first, as in the `OrderedDict`) and `_stats`. -/
structure CacheState where
  cache : List (String × CacheEntry) := []
  stats : CacheStats := {}
deriving DecidableEq

/-- ContentCachePlugin._evict_oldest: pop the least recently used entry and
account for it; a no-op on an empty cache. -/
def evictOldest (st : CacheState) : CacheState :=
  match st.cache with
  | [] => st
  | e :: rest =>
    { cache := rest
      stats := { st.stats with
        total_size_bytes := st.stats.total_size_bytes - e.2.size_bytes
        entry_count := st.stats.entry_count - 1
        evictions := st.stats.evictions + 1 } }

/-- ContentCachePlugin._evict: evict one specific key if present. -/
def evictKey (st : CacheState) (key : String) : CacheState :=
  match dictFind st.cache key with
  | none => st
  | some e =>
    { cache := removeKey st.cache key
      stats := { st.stats with
        total_size_bytes := st.stats.total_size_bytes - e.size_bytes
        entry_count := st.stats.entry_count - 1
        evictions := st.stats.evictions + 1 } }

/-- Count-bound eviction loop of `_evict_if_needed`
(`while len(cache) >= max_entries: evict_oldest`), written with explicit
fuel. Python's loop would not terminate with `max_entries = 0` and a cache
that is already empty; the extra non-empty guard is equivalent for
`max_entries ≥ 1`, the regime of every claim below. -/
def evictCountFuel (cfg : CacheCfg) : ℕ → CacheState → CacheState
  | 0, st => st
  | n + 1, st =>
    if cfg.max_entries ≤ st.cache.length ∧ st.cache ≠ [] then
      evictCountFuel cfg n (evictOldest st)
    else st

/-- Size-bound eviction loop of `_evict_if_needed`
(`while total_size + new_size > max_size_bytes and cache: evict_oldest`),
with explicit fuel. -/
def evictSizeFuel (cfg : CacheCfg) (new_size : ℕ) : ℕ → CacheState → CacheState
  | 0, st => st
  | n + 1, st =>
    if (cfg.max_size_bytes : ℤ) < st.stats.total_size_bytes + (new_size : ℤ)
        ∧ st.cache ≠ [] then
      evictSizeFuel cfg new_size n (evictOldest st)
    else st

/-- ContentCachePlugin._set: un-account and drop an existing entry under the
key, run both eviction loops, then append the fresh entry (UTF-8 byte size,
created now) and account for it. -/
def cacheSet (cfg : CacheCfg) (st : CacheState) (key value : String) (now : ℚ) :
    CacheState :=
  let size := value.utf8ByteSize
  let st1 :=
    match dictFind st.cache key with
    | some old =>
      { cache := removeKey st.cache key
        stats := { st.stats with
          total_size_bytes := st.stats.total_size_bytes - old.size_bytes
          entry_count := st.stats.entry_count - 1 } }
    | none => st
  let st2 := evictCountFuel cfg st1.cache.length st1
  let st3 := evictSizeFuel cfg size st2.cache.length st2
  { cache := st3.cache ++ [(key, CacheEntry.mk key value size now now 0)]
    stats := { st3.stats with
      total_size_bytes := st3.stats.total_size_bytes + (size : ℤ)
      entry_count := st3.stats.entry_count + 1 } }

/-- ContentCachePlugin.get: `None` without any effect when disabled; a miss
when the key is absent; eviction plus a miss when the entry has outlived the
TTL; otherwise move the entry to the most recently used end, touch it and
count a hit. -/
def cacheGet (cfg : CacheCfg) (st : CacheState) (key : String) (now : ℚ) :
    Option String × CacheState :=
  if cfg.enabled = false then (none, st)
  else
    match dictFind st.cache key with
    | none =>
      (none, { st with stats := { st.stats with misses := st.stats.misses + 1 } })
    | some e =>
      if cfg.ttl_seconds < now - e.created_at then
        let st1 := evictKey st key
        (none, { st1 with stats := { st1.stats with misses := st1.stats.misses + 1 } })
      else
        let touched : CacheEntry :=
          { e with last_accessed := now, access_count := e.access_count + 1 }
        (some e.value,
         { cache := removeKey st.cache key ++ [(key, touched)]
           stats := { st.stats with hits := st.stats.hits + 1 } })

/-- ContentCachePlugin._make_key: `layer` and the first 16 hex digits of the
MD5 of the content; `md5hex` is the uninterpreted digest function. -/
def mkCacheKey (md5hex : String → String) (layer content : String) : String :=
  layer ++ ":" ++ (md5hex content).take 16

/-- ContentCachePlugin.post_load: cache the content under the derived key
when enabled; the content itself is returned unchanged by the source. -/
def cachePostLoad (cfg : CacheCfg) (md5hex : String → String) (st : CacheState)
    (layer content : String) (now : ℚ) : CacheState :=
  if cfg.enabled then cacheSet cfg st (mkCacheKey md5hex layer content) content now
  else st

/-- ContentCachePlugin.clear: drop all entries and reset the statistics. -/
def cacheClear (_st : CacheState) : CacheState :=
  {}

/-- One public cache operation, for reasoning about arbitrary call
sequences. -/
inductive CacheOp where
  | get (key : String) (now : ℚ)
  | load (layer content : String) (now : ℚ)
  | clear
deriving DecidableEq

/-- Interpreter for a sequence of cache operations. -/
def runCacheOps (cfg : CacheCfg) (md5hex : String → String)
    (st : CacheState) : List CacheOp → CacheState
  | [] => st
  | op :: ops =>
    let st1 := match op with
      | CacheOp.get key now => (cacheGet cfg st key now).2
      | CacheOp.load layer content now => cachePostLoad cfg md5hex st layer content now
      | CacheOp.clear => cacheClear st
    runCacheOps cfg md5hex st1 ops

/-- Sum of the accounted sizes of the entries held in the cache. -/
def cacheSizeSum (l : List (String × CacheEntry)) : ℤ :=
  (l.map (fun p => (p.2.size_bytes : ℤ))).sum

/-- Accounting invariant of the cache: the statistics fields agree with the
held entries and the entry count respects the configured bound. -/
def cacheWF (cfg : CacheCfg) (st : CacheState) : Prop :=
  st.stats.entry_count = st.cache.length ∧
  st.stats.total_size_bytes = cacheSizeSum st.cache ∧
  st.cache.length ≤ cfg.max_entries

/-! ### LoadStatus (core/models.py) and the loader orchestrator -/

/-- LoadStatus enum from core/models.py: the closed set of load outcome
statuses. The Lean keyword forbids reusing the literal constructor name for
the partial outcome, which is named `part` here; its string value is
unchanged. -/
inductive LoadStatus where
  | success
  | part
  | fallback
  | timeout
  | error
deriving DecidableEq

/-- String value of each LoadStatus member, as in core/models.py. -/
def LoadStatus.toStr : LoadStatus → String
  | .success => "success"
  | .part => "partial"
  | .fallback => "fallback"
  | .timeout => "timeout"
  | .error => "error"

/-- Closed enumeration of status strings from the spec and core/models.py. -/
def statusStrings : List String :=
  ["success", "partial", "fallback", "timeout", "error"]

/-- Substring test used to state the not-found marker property: some suffix
of the haystack starts with the needle. -/
def strContainsSub (hay needle : String) : Bool :=
  hay.data.tails.any (fun t => needle.data.isPrefixOf t)

/-- Modelled from the spec: the LoadResult record produced by the loader
orchestrator (sage/core/loader.py is not in the source tree). Fields carried
here are the ones the claims consult; `duration_ms` is the elapsed wall time
in integral milliseconds. -/
structure LoadResultM where
  content : String
  status : LoadStatus
  duration_ms : ℤ
  files_loaded : List String := []
  errors : List String := []
deriving DecidableEq

/-- Modelled from the spec: the core of `KnowledgeLoader.load` (absent from
src) on a resolved file list. Each file is read from the knowledge base `kb`;
a missing file is recorded as a per-file error and never aborts the request.
Status classification follows section 4.5: success when every targeted file
was fetched, partial when at least one succeeded and at least one failed,
else fallback. `startT`/`endT` are the monotonic clock readings bracketing
the operation. -/
def loadFiles (kb : String → Option String) (files : List String)
    (startT endT : ℚ) : LoadResultM :=
  let oks := files.filter (fun f => (kb f).isSome)
  let errs := (files.filter (fun f => (kb f).isNone)).map (fun f => f ++ ": not found")
  { content := String.join (files.filterMap kb)
    status :=
      if errs = [] then .success
      else if oks ≠ [] then .part
      else .fallback
    duration_ms := ⌊(endT - startT) * 1000⌋
    files_loaded := oks
    errors := errs }

/-- Modelled from the spec: `KnowledgeLoader.load_framework` (absent from
src). A named unit is looked up; absence is surfaced as a returned result
with status error and an explicit "not found" marker in the content, the one
operation that reports absence as an error status. -/
def loadFramework (kb : String → Option String) (name : String)
    (startT endT : ℚ) : LoadResultM :=
  match kb name with
  | some c =>
    { content := c
      status := .success
      duration_ms := ⌊(endT - startT) * 1000⌋
      files_loaded := [name] }
  | none =>
    { content := "Framework " ++ name ++ " " ++ "not found"
      status := .error
      duration_ms := ⌊(endT - startT) * 1000⌋
      errors := ["Framework " ++ name ++ " " ++ "not found"] }

/-! ### Timeout budget allocator (section 4.2, modelled from the spec) -/

/-- Modelled from the spec: one planned fetch for the budget allocator — its
own timeout ceiling and the wall time the fetch would actually consume if
granted at least that much budget. -/
structure FetchSpec where
  cap : ℚ
  dur : ℚ
deriving DecidableEq

/-- Outcome of the allocator for one fetch: either a ceiling assigned at a
start instant, or a skip because the remaining budget was exhausted. -/
inductive FetchOutcome where
  | assigned (start ceiling : ℚ)
  | skipped (start : ℚ)
deriving DecidableEq

/-- Modelled from the spec: the sequential budget allocation loop of section
4.2. Before each fetch, `remaining = deadline - elapsed` is recomputed; a
non-positive remainder skips the fetch, otherwise the fetch receives the
ceiling `min(remaining, its own cap)` and consumes its duration, truncated
at the assigned ceiling. `now` is the elapsed time since request start. -/
def allocRun (deadline : ℚ) : ℚ → List FetchSpec → List FetchOutcome
  | _, [] => []
  | now, f :: fs =>
    let remaining := deadline - now
    if remaining ≤ 0 then
      FetchOutcome.skipped now :: allocRun deadline now fs
    else
      let ceiling := min remaining f.cap
      FetchOutcome.assigned now ceiling :: allocRun deadline (now + min f.dur ceiling) fs

/-- Sum of the ceilings assigned to fetches started strictly after `t`. -/
def ceilSumAfter (t : ℚ) (outs : List FetchOutcome) : ℚ :=
  (outs.map (fun o =>
    match o with
    | FetchOutcome.assigned s c => if t < s then c else 0
    | FetchOutcome.skipped _ => 0)).sum

/-! ### Circuit breaker (section 4.4, modelled from the spec) -/

/-- Modelled from the spec: circuit breaker modes. `opened` stands for the
OPEN state (the Lean name `open` is reserved). -/
inductive CBMode where
  | closed
  | opened
  | halfOpen
deriving DecidableEq

/-- Modelled from the spec: circuit breaker configuration, default threshold
3 consecutive failures and cooldown 30 s. -/
structure CBConfig where
  threshold : ℕ := 3
  cooldown : ℚ := 30
deriving DecidableEq

/-- Modelled from the spec: per-resource circuit breaker state. -/
structure CBState where
  mode : CBMode := .closed
  failures : ℕ := 0
  openedAt : ℚ := 0
deriving DecidableEq

/-- Outcome of one guarded fetch attempt: a real fetch that succeeded or
failed, a body served from cache while the circuit is open, or the soft
circuit-open error. -/
inductive CBOutcome where
  | fetched (ok : Bool)
  | fromCache (body : String)
  | circuitOpenError
deriving DecidableEq

/-- Result of one guarded attempt: the outcome, the successor breaker state
and the number of real fetch attempts performed (0 or 1). -/
structure CBStep where
  outcome : CBOutcome
  state : CBState
  realAttempts : ℕ
deriving DecidableEq

/-- Modelled from the spec: one fetch attempt for a resource guarded by the
circuit breaker (section 4.4). While OPEN and inside the cooldown window the
attempt is skipped entirely — zero real fetches — and satisfied from cache
when available, else recorded as a soft circuit-open error. Once the
cooldown has elapsed the breaker is HALF_OPEN and exactly one real attempt
is allowed: success closes the breaker and resets the count, failure
re-opens it and restarts the cooldown. In CLOSED, attempts proceed normally;
each failure increments the consecutive-failure count and reaching the
threshold opens the breaker at the current instant. -/
def cbAttempt (cfg : CBConfig) (st : CBState) (now : ℚ) (cached : Option String)
    (fetchOk : Bool) : CBStep :=
  if st.mode = .opened ∧ now < st.openedAt + cfg.cooldown then
    { outcome :=
        match cached with
        | some b => .fromCache b
        | none => .circuitOpenError
      state := st
      realAttempts := 0 }
  else if st.mode = .opened ∨ st.mode = .halfOpen then
    if fetchOk then
      { outcome := .fetched true
        state := { mode := .closed, failures := 0, openedAt := st.openedAt }
        realAttempts := 1 }
    else
      { outcome := .fetched false
        state := { mode := .opened, failures := st.failures, openedAt := now }
        realAttempts := 1 }
  else
    if fetchOk then
      { outcome := .fetched true
        state := { mode := .closed, failures := 0, openedAt := st.openedAt }
        realAttempts := 1 }
    else
      let k := st.failures + 1
      { outcome := .fetched false
        state :=
          if cfg.threshold ≤ k then
            { mode := .opened, failures := k, openedAt := now }
          else
            { mode := .closed, failures := k, openedAt := st.openedAt }
        realAttempts := 1 }

/-- Fold of `cbAttempt` over a sequence of attempts, accumulating the total
number of real fetch attempts and every outcome. -/
def cbRun (cfg : CBConfig) (st : CBState) :
    List (ℚ × Option String × Bool) → CBState × ℕ × List CBOutcome
  | [] => (st, 0, [])
  | (now, cached, ok) :: rest =>
    let step := cbAttempt cfg st now cached ok
    let r := cbRun cfg step.state rest
    (r.1, step.realAttempts + r.2.1, step.outcome :: r.2.2)

/-! ### Loader fingerprint cache (sections 3 and 4.3, modelled from the
spec) -/

/-- Modelled from the spec: a loader cache entry — the cached body and the
content fingerprint it was captured with (`KnowledgeLoader._cache` and
`_cache_hashes` are absent from src). -/
structure FpEntry where
  body : String
  fp : String
deriving DecidableEq

/-- Modelled from the spec: the per-file fetch of section 4.3. When a cache
entry exists for the path, the fingerprint of the current on-disk content is
computed; a match returns the cached body, a mismatch re-reads and replaces
the entry. Without an entry the file is read and the entry inserted. A
missing file is a content-not-found condition (no body, cache untouched). -/
def fetchFile (h : String → String) (disk : String → Option String)
    (st : List (String × FpEntry)) (path : String) :
    Option String × List (String × FpEntry) :=
  match dictFind st path, disk path with
  | some e, some c =>
    if h c = e.fp then (some e.body, st)
    else (some c, dictSet st path (FpEntry.mk c (h c)))
  | some _, none => (none, st)
  | none, some c => (some c, dictSet st path (FpEntry.mk c (h c)))
  | none, none => (none, st)

/-- Well-formedness of the loader cache: keys are unique and every entry's
fingerprint is the hash of its own body. -/
def fpWF (h : String → String) (st : List (String × FpEntry)) : Prop :=
  (st.map Prod.fst).Nodup ∧ ∀ p ∈ st, p.2.fp = h p.2.body

/-! ## Lemmas about the search result pipeline -/

theorem scoreGe_trans (a b c : SearchResult) (h1 : scoreGe a b) (h2 : scoreGe b c) :
    scoreGe a c :=
  decide_eq_true (le_trans (of_decide_eq_true h2) (of_decide_eq_true h1))

theorem scoreGe_total (a b : SearchResult) : scoreGe a b || scoreGe b a := by
  rcases le_total b.score a.score with h | h <;> simp [scoreGe, h]

theorem sorted_search_pipeline (rs : List SearchResult) (n : ℕ) :
    ((rs.mergeSort scoreGe).take n).Pairwise (fun a b => b.score ≤ a.score) := by
  have hs : (rs.mergeSort scoreGe).Pairwise (fun a b => scoreGe a b) :=
    List.sorted_mergeSort scoreGe_trans scoreGe_total rs
  exact ((hs.sublist (List.take_sublist n _)).imp (fun hab => of_decide_eq_true hab))

/-! ## Claim theorems: search (C6, C7) -/

/-- Fixture: an index holding one document, built through `indexDocument`. -/
def stSearchOne : SearchState :=
  indexDocument {} "d1" "hello world hello" "" "" "" []

/-- C6. Search on empty input: for every query, search returns an empty list
when the index contains no documents, and likewise returns an empty list when
the query is blank (tokenises to no terms); the model is total, so no error
can be raised. -/
theorem search_empty_inputs (ops : RealOps) (st : SearchState) (query : String) :
    (st.documents = [] → search ops st query = []) ∧
    (tokenize st.config query = [] → search ops st query = []) := by
  constructor
  · intro h
    simp [search, h]
  · intro h
    by_cases he : st.enabled = false ∨ st.documents = []
    · simp [search, he]
    · simp [search, he, h]

/-- Witness for C6 at concrete inputs: an empty index with a non-blank query,
and a one-document index with a blank query. -/
theorem search_empty_inputs_witness :
    search idOps {} "anything" = [] ∧ search idOps stSearchOne "" = [] :=
  ⟨(search_empty_inputs idOps {} "anything").1 rfl,
   (search_empty_inputs idOps stSearchOne "").2 (by decide)⟩

/-- C7. Search ranking contract: for every indexed document set and query,
`search` returns at most `config.max_results` results, every returned result
has score at least `config.score_threshold`, and the returned list is sorted
in non-increasing order of score. -/
theorem search_ranking_contract (ops : RealOps) (st : SearchState) (query : String) :
    (search ops st query).length ≤ st.config.max_results ∧
    (∀ r ∈ search ops st query, st.config.score_threshold ≤ r.score) ∧
    (search ops st query).Pairwise (fun a b => b.score ≤ a.score) := by
  unfold search
  split
  · simp
  · dsimp only
    split
    · simp
    · refine ⟨?_, ?_, sorted_search_pipeline _ _⟩
      · exact (List.length_take_le _ _)
      · intro r hr
        have hm : r ∈ (((st.documents.map
            (fun p =>
              let sm := calcSimilarity ops st (calcQueryVector ops st
                (tokenize st.config query)) p.2
              SearchResult.mk p.2 sm.1 sm.2)).filter
            (fun r => st.config.score_threshold ≤ r.score)).mergeSort scoreGe) :=
          (List.take_sublist _ _).subset hr
        have hf := (List.mem_mergeSort).1 hm
        exact of_decide_eq_true (List.mem_filter.1 hf).2


/-! ## Lemmas about association lists and counters -/

theorem dictFind_cons {β : Type} (a : String × β) (rest : List (String × β)) (t : String) :
    dictFind (a :: rest) t = if a.1 = t then some a.2 else dictFind rest t := by
  by_cases h : a.1 = t
  · simp [dictFind, List.find?_cons, h]
  · simp [dictFind, List.find?_cons, beq_eq_false_iff_ne.mpr h, h]

theorem counterIncr_cons (a : String × ℤ) (rest : List (String × ℤ)) (k : String) (d : ℤ) :
    counterIncr (a :: rest) k d =
      if a.1 = k then (a.1, a.2 + d) :: rest else a :: counterIncr rest k d := by
  by_cases h : a.1 = k
  · simp [counterIncr, h]
  · simp [counterIncr, beq_eq_false_iff_ne.mpr h, h]

theorem removeKey_cons {β : Type} (a : String × β) (rest : List (String × β)) (k : String) :
    removeKey (a :: rest) k = if a.1 = k then rest else a :: removeKey rest k := by
  by_cases h : a.1 = k
  · simp [removeKey, h]
  · simp [removeKey, beq_eq_false_iff_ne.mpr h, h]

theorem dictSet_cons {β : Type} (a : String × β) (rest : List (String × β)) (k : String) (v : β) :
    dictSet (a :: rest) k v = if a.1 = k then (k, v) :: rest else a :: dictSet rest k v := by
  by_cases h : a.1 = k
  · simp [dictSet, h]
  · simp [dictSet, beq_eq_false_iff_ne.mpr h, h]

theorem dictHas_cons {β : Type} (a : String × β) (rest : List (String × β)) (k : String) :
    dictHas (a :: rest) k = (a.1 = k || dictHas rest k) := by
  by_cases h : a.1 = k
  · simp [dictHas, h]
  · simp [dictHas, beq_eq_false_iff_ne.mpr h, h]

theorem dictHas_iff {β : Type} (m : List (String × β)) (k : String) :
    dictHas m k = true ↔ k ∈ m.map Prod.fst := by
  induction m with
  | nil => simp [dictHas]
  | cons a rest ih =>
    rw [dictHas_cons]
    by_cases h : a.1 = k
    · simp [h]
    · simp only [decide_eq_true_eq, List.map_cons, List.mem_cons, Bool.or_eq_true, ih]
      constructor
      · intro hh
        exact Or.elim hh (fun he => absurd he h) Or.inr
      · rintro (hk | hk)
        · exact absurd hk.symm h
        · exact Or.inr hk

theorem dictFind_eq_none {β : Type} (m : List (String × β)) (k : String)
    (h : k ∉ m.map Prod.fst) : dictFind m k = none := by
  induction m with
  | nil => rfl
  | cons a rest ih =>
    simp only [List.map_cons, List.mem_cons, not_or] at h
    rw [dictFind_cons, if_neg (fun he => h.1 he.symm)]
    exact ih h.2

theorem dictSet_of_not_has {β : Type} (m : List (String × β)) (k : String) (v : β)
    (h : dictHas m k = false) : dictSet m k v = m ++ [(k, v)] := by
  induction m with
  | nil => rfl
  | cons a rest ih =>
    rw [dictHas_cons] at h
    simp only [Bool.or_eq_false_iff, decide_eq_false_iff_not] at h
    rw [dictSet_cons, if_neg h.1, ih h.2]
    rfl

theorem dictFind_append_last {β : Type} (m : List (String × β)) (k : String) (v : β)
    (h : dictHas m k = false) : dictFind (m ++ [(k, v)]) k = some v := by
  induction m with
  | nil => simp [dictFind, List.find?_cons]
  | cons a rest ih =>
    rw [dictHas_cons] at h
    simp only [Bool.or_eq_false_iff, decide_eq_false_iff_not] at h
    rw [List.cons_append, dictFind_cons, if_neg h.1]
    exact ih h.2

theorem removeKey_append_last {β : Type} (m : List (String × β)) (k : String) (v : β)
    (h : dictHas m k = false) : removeKey (m ++ [(k, v)]) k = m := by
  induction m with
  | nil => simp [removeKey]
  | cons a rest ih =>
    rw [dictHas_cons] at h
    simp only [Bool.or_eq_false_iff, decide_eq_false_iff_not] at h
    rw [List.cons_append, removeKey_cons, if_neg h.1, ih h.2]

theorem removeKey_sublist {β : Type} (m : List (String × β)) (k : String) :
    List.Sublist (removeKey m k) m := by
  induction m with
  | nil => simp [removeKey]
  | cons a rest ih =>
    rw [removeKey_cons]
    by_cases h : a.1 = k
    · simp [h]
    · simpa [h] using ih.cons₂ a

theorem counterGet_cons (a : String × ℤ) (rest : List (String × ℤ)) (t : String) :
    counterGet (a :: rest) t = if a.1 = t then a.2 else counterGet rest t := by
  rw [counterGet, dictFind_cons]
  by_cases h : a.1 = t <;> simp [h, counterGet]

theorem counterGet_incr (m : List (String × ℤ)) (k : String) (d : ℤ) (t : String) :
    counterGet (counterIncr m k d) t =
      if t = k then counterGet m t + d else counterGet m t := by
  induction m with
  | nil =>
    show counterGet [(k, d)] t = if t = k then counterGet [] t + d else counterGet [] t
    rw [counterGet_cons]
    by_cases htk : t = k
    · simp [htk, counterGet, dictFind]
    · rw [if_neg (fun he : k = t => htk he.symm), if_neg htk]
  | cons a rest ih =>
    rw [counterIncr_cons]
    by_cases hak : a.1 = k
    · by_cases htk : t = k
      · rw [if_pos hak]
        rw [counterGet_cons, counterGet_cons]
        have hat : a.1 = t := by rw [hak, htk]
        simp [hat, htk]
      · rw [if_pos hak]
        rw [counterGet_cons, counterGet_cons]
        have hat : ¬ a.1 = t := fun he => htk (by rw [← he, hak])
        simp [hat, htk]
    · by_cases hta : t = a.1
      · have htk : ¬ t = k := fun he => hak (by rw [← hta, he])
        rw [if_neg hak, counterGet_cons, counterGet_cons]
        simp [hta.symm, htk]
      · rw [if_neg hak, counterGet_cons, counterGet_cons,
          if_neg (fun he : a.1 = t => hta he.symm),
          if_neg (fun he : a.1 = t => hta he.symm), ih]

theorem keys_counterIncr (m : List (String × ℤ)) (k : String) (d : ℤ) :
    (counterIncr m k d).map Prod.fst =
      if dictHas m k then m.map Prod.fst else m.map Prod.fst ++ [k] := by
  induction m with
  | nil => simp [counterIncr, dictHas]
  | cons a rest ih =>
    rw [counterIncr_cons, dictHas_cons]
    by_cases hak : a.1 = k
    · simp [hak]
    · simp only [hak, decide_eq_true_eq, Bool.false_or, if_neg hak]
      by_cases hh : dictHas rest k
      · simp [hak, hh, ih]
      · simp [hak, hh, ih]

theorem nodup_counterIncr (m : List (String × ℤ)) (k : String) (d : ℤ)
    (h : (m.map Prod.fst).Nodup) : ((counterIncr m k d).map Prod.fst).Nodup := by
  rw [keys_counterIncr]
  by_cases hh : dictHas m k
  · simpa [hh] using h
  · have hk : k ∉ m.map Prod.fst := fun hm => by
      simp [(dictHas_iff m k).2 hm] at hh
    simp [hh, List.nodup_append, h, hk]

theorem nodup_removeKey {β : Type} (m : List (String × β)) (k : String)
    (h : (m.map Prod.fst).Nodup) : ((removeKey m k).map Prod.fst).Nodup :=
  h.sublist ((removeKey_sublist m k).map Prod.fst)

theorem counterGet_removeKey (m : List (String × ℤ)) (k t : String)
    (hnd : (m.map Prod.fst).Nodup) :
    counterGet (removeKey m k) t = if t = k then 0 else counterGet m t := by
  induction m with
  | nil => by_cases htk : t = k <;> simp [removeKey, counterGet, dictFind, htk]
  | cons a rest ih =>
    simp only [List.map_cons, List.nodup_cons] at hnd
    rw [removeKey_cons]
    by_cases hak : a.1 = k
    · rw [if_pos hak]
      by_cases htk : t = k
      · rw [if_pos htk]
        have hmem : t ∉ rest.map Prod.fst := htk ▸ (hak ▸ hnd.1)
        simp [counterGet, dictFind_eq_none rest t hmem]
      · rw [if_neg htk, counterGet_cons,
          if_neg (fun he : a.1 = t => htk (by rw [← he, hak]))]
    · rw [if_neg hak]
      by_cases hta : t = a.1
      · have htk : ¬ t = k := fun he => hak (by rw [← hta, he])
        rw [counterGet_cons, counterGet_cons]
        simp [hta.symm, htk]
      · rw [counterGet_cons, if_neg (fun he : a.1 = t => hta he.symm), ih hnd.2,
          counterGet_cons, if_neg (fun he : a.1 = t => hta he.symm)]

theorem counterGet_nonneg (m : List (String × ℤ)) (t : String)
    (hpos : ∀ p ∈ m, 0 ≤ p.2) : 0 ≤ counterGet m t := by
  unfold counterGet dictFind
  cases hf : m.find? (fun p => p.1 == t) with
  | none => simp
  | some p => simpa using hpos p (List.mem_of_find?_eq_some hf)


theorem counterGet_incrAll (ks : List String) (m : List (String × ℤ)) (t : String) :
    counterGet (ks.foldl (fun m k => counterIncr m k 1) m) t =
      counterGet m t + ks.count t := by
  induction ks generalizing m with
  | nil => simp
  | cons k ks ih =>
    rw [List.foldl_cons, ih, counterGet_incr, List.count_cons]
    by_cases htk : t = k
    · simp [htk]
      omega
    · simp [htk, beq_eq_false_iff_ne.mpr htk, Ne.symm htk]

theorem nodup_incrAll (ks : List String) (m : List (String × ℤ))
    (h : (m.map Prod.fst).Nodup) :
    (((ks.foldl (fun m k => counterIncr m k 1) m)).map Prod.fst).Nodup := by
  induction ks generalizing m with
  | nil => exact h
  | cons k ks ih => exact ih _ (nodup_counterIncr m k 1 h)

theorem counterGet_dfRetract (m : List (String × ℤ)) (k t : String)
    (hnd : (m.map Prod.fst).Nodup) :
    counterGet (dfRetract m k) t =
      if t = k then
        (if counterGet m k - 1 ≤ 0 then 0 else counterGet m k - 1)
      else counterGet m t := by
  unfold dfRetract
  have hk : counterGet (counterIncr m k (-1)) k = counterGet m k - 1 := by
    rw [counterGet_incr, if_pos rfl]
    omega
  have ht : counterGet (counterIncr m k (-1)) t =
      if t = k then counterGet m k - 1 else counterGet m t := by
    rw [counterGet_incr]
    by_cases htk : t = k
    · rw [if_pos htk, if_pos htk, htk]
      omega
    · rw [if_neg htk, if_neg htk]
  by_cases hle : counterGet (counterIncr m k (-1)) k ≤ 0
  · rw [if_pos hle, counterGet_removeKey _ _ _ (nodup_counterIncr m k (-1) hnd)]
    rw [hk] at hle
    by_cases htk : t = k
    · rw [if_pos htk, if_pos htk, if_pos hle]
    · rw [if_neg htk, if_neg htk, ht, if_neg htk]
  · rw [if_neg hle, ht]
    rw [hk] at hle
    by_cases htk : t = k
    · rw [if_pos htk, if_pos htk, if_neg hle]
    · rw [if_neg htk, if_neg htk]

theorem nodup_dfRetract (m : List (String × ℤ)) (k : String)
    (hnd : (m.map Prod.fst).Nodup) : ((dfRetract m k).map Prod.fst).Nodup := by
  unfold dfRetract
  by_cases hle : counterGet (counterIncr m k (-1)) k ≤ 0
  · rw [if_pos hle]
    exact nodup_removeKey _ _ (nodup_counterIncr m k (-1) hnd)
  · rw [if_neg hle]
    exact nodup_counterIncr m k (-1) hnd

theorem counterGet_decrAll (ks : List String) (m : List (String × ℤ)) (t : String)
    (hknd : ks.Nodup) (hmnd : (m.map Prod.fst).Nodup) :
    counterGet (ks.foldl dfRetract m) t =
      if t ∈ ks then
        (if counterGet m t - 1 ≤ 0 then 0 else counterGet m t - 1)
      else counterGet m t := by
  induction ks generalizing m with
  | nil => simp
  | cons k ks ih =>
    simp only [List.nodup_cons] at hknd
    rw [List.foldl_cons, ih _ hknd.2 (nodup_dfRetract m k hmnd),
      counterGet_dfRetract m k t hmnd]
    by_cases htk : t = k
    · have hin : t ∉ ks := fun hm => hknd.1 (htk ▸ hm)
      rw [if_neg hin, if_pos htk, if_pos (List.mem_cons.mpr (Or.inl htk)), htk]
    · rw [if_neg htk]
      by_cases hin : t ∈ ks
      · rw [if_pos hin, if_pos (List.mem_cons_of_mem k hin)]
      · rw [if_neg hin, if_neg (by simp [htk, hin])]

theorem counter_roundtrip (ks : List String) (m : List (String × ℤ)) (t : String)
    (hknd : ks.Nodup) (hmnd : (m.map Prod.fst).Nodup)
    (hpos : ∀ p ∈ m, 0 ≤ p.2) :
    counterGet (ks.foldl dfRetract (ks.foldl (fun m k => counterIncr m k 1) m)) t =
      counterGet m t := by
  rw [counterGet_decrAll ks _ t hknd (nodup_incrAll ks m hmnd), counterGet_incrAll]
  have h0 : 0 ≤ counterGet m t := counterGet_nonneg m t hpos
  by_cases hin : t ∈ ks
  · rw [if_pos hin, List.count_eq_one_of_mem hknd hin]
    push_cast
    split_ifs with h1
    · omega
    · omega
  · rw [if_neg hin, List.count_eq_zero_of_not_mem hin]
    push_cast
    omega

theorem keys_counterBump (m : List (String × ℕ)) (k : String) :
    (counterBump m k).map Prod.fst =
      if dictHas m k then m.map Prod.fst else m.map Prod.fst ++ [k] := by
  induction m with
  | nil => simp [counterBump, dictHas]
  | cons a rest ih =>
    rw [dictHas_cons]
    by_cases hak : a.1 = k
    · simp [counterBump, hak]
    · simp only [counterBump, beq_eq_false_iff_ne.mpr hak, hak, decide_eq_true_eq,
        Bool.false_or, if_false, Bool.false_eq_true]
      by_cases hh : dictHas rest k
      · simp [hak, hh, ih]
      · simp [hak, hh, ih]

theorem nodup_counterBump (m : List (String × ℕ)) (k : String)
    (h : (m.map Prod.fst).Nodup) : ((counterBump m k).map Prod.fst).Nodup := by
  rw [keys_counterBump]
  by_cases hh : dictHas m k
  · simpa [hh] using h
  · have hk : k ∉ m.map Prod.fst := fun hm => by
      simp [(dictHas_iff m k).2 hm] at hh
    simp [hh, List.nodup_append, h, hk]

theorem nodup_keys_counterOf (ts : List String) :
    ((counterOf ts).map Prod.fst).Nodup := by
  have haux : ∀ (ts : List String) (m : List (String × ℕ)),
      (m.map Prod.fst).Nodup → ((ts.foldl counterBump m).map Prod.fst).Nodup := by
    intro ts
    induction ts with
    | nil => exact fun m h => h
    | cons t ts ih => exact fun m h => ih _ (nodup_counterBump m t h)
  exact haux ts [] (by simp)


/-! ## Claim theorem: index round-trip (C9) -/

/-- C9. Index round-trip: for every document id not currently in the index
(of a well-formed index: unique and non-negative document-frequency entries,
as every reachable index state has), `index_document(doc_id, ...)` followed by
`remove_document(doc_id)` returns True from the removal and restores the
stored documents, the total document count, and the per-term document
frequencies to exactly their previous values (frequency maps are compared
pointwise, which is `Counter` equality in Python). -/
theorem index_remove_roundtrip (st : SearchState)
    (doc_id content title layer path : String) (metadata : List (String × String))
    (habs : dictHas st.documents doc_id = false)
    (hnd : (st.document_frequencies.map Prod.fst).Nodup)
    (hpos : ∀ p ∈ st.document_frequencies, 0 ≤ p.2) :
    (removeDocument (indexDocument st doc_id content title layer path metadata)
        doc_id).1 = true ∧
    (removeDocument (indexDocument st doc_id content title layer path metadata)
        doc_id).2.documents = st.documents ∧
    (removeDocument (indexDocument st doc_id content title layer path metadata)
        doc_id).2.total_documents = st.total_documents ∧
    ∀ t, counterGet (removeDocument
        (indexDocument st doc_id content title layer path metadata)
        doc_id).2.document_frequencies t =
      counterGet st.document_frequencies t := by
  have hno : doc_id ∉ st.documents.map Prod.fst := fun hm => by
    simp [(dictHas_iff st.documents doc_id).2 hm] at habs
  have hfind : dictFind st.documents doc_id = none :=
    dictFind_eq_none st.documents doc_id hno
  have hidx : indexDocument st doc_id content title layer path metadata =
      { st with
        documents := st.documents ++
          [(doc_id, mkDocument st.config doc_id content title layer path metadata)]
        document_frequencies :=
          ((mkDocument st.config doc_id content title layer path metadata).terms.map
            Prod.fst).foldl (fun m t => counterIncr m t 1) st.document_frequencies
        total_documents := st.total_documents + 1 } := by
    unfold indexDocument
    rw [hfind]
    dsimp only
    rw [dictSet_of_not_has st.documents doc_id _ habs]
  rw [hidx]
  have hfind2 : dictFind (st.documents ++
      [(doc_id, mkDocument st.config doc_id content title layer path metadata)])
      doc_id = some (mkDocument st.config doc_id content title layer path metadata) :=
    dictFind_append_last st.documents doc_id _ habs
  unfold removeDocument
  rw [hfind2]
  simp only [removeKey_append_last st.documents doc_id _ habs]
  refine ⟨trivial, trivial, by omega, ?_⟩
  intro t
  exact counter_roundtrip _ st.document_frequencies t
    (nodup_keys_counterOf _) hnd hpos

/-- Witness for C9: indexing and then removing a fresh document on an empty
index restores the empty index. -/
theorem index_remove_roundtrip_witness :
    dictHas (SearchState.documents {}) "d1" = false ∧
    (removeDocument (indexDocument {} "d1" "hello world hello" "" "" "" [])
        "d1").1 = true ∧
    (removeDocument (indexDocument {} "d1" "hello world hello" "" "" "" [])
        "d1").2.documents = [] ∧
    (removeDocument (indexDocument {} "d1" "hello world hello" "" "" "" [])
        "d1").2.total_documents = 0 ∧
    counterGet (removeDocument (indexDocument {} "d1" "hello world hello" "" "" "" [])
        "d1").2.document_frequencies "hello" = 0 := by
  have h := index_remove_roundtrip {} "d1" "hello world hello" "" "" "" []
    (by decide) (by decide) (by decide)
  exact ⟨by decide, h.1, h.2.1, h.2.2.1, h.2.2.2 "hello"⟩


/-! ## Lemmas for the cache accounting invariant (C8) -/

/-- Accounting part of the cache invariant: the statistics agree with the
entries actually held. -/
def cacheAcct (st : CacheState) : Prop :=
  st.stats.entry_count = st.cache.length ∧
  st.stats.total_size_bytes = cacheSizeSum st.cache

theorem cacheSizeSum_nil : cacheSizeSum [] = 0 := rfl

theorem cacheSizeSum_cons (a : String × CacheEntry) (l : List (String × CacheEntry)) :
    cacheSizeSum (a :: l) = (a.2.size_bytes : ℤ) + cacheSizeSum l := by
  simp [cacheSizeSum]

theorem cacheSizeSum_append (l1 l2 : List (String × CacheEntry)) :
    cacheSizeSum (l1 ++ l2) = cacheSizeSum l1 + cacheSizeSum l2 := by
  simp [cacheSizeSum]

theorem removeKey_accounting (m : List (String × CacheEntry)) (k : String)
    (e : CacheEntry) (hf : dictFind m k = some e) :
    (removeKey m k).length + 1 = m.length ∧
    cacheSizeSum (removeKey m k) + (e.size_bytes : ℤ) = cacheSizeSum m := by
  induction m with
  | nil => simp [dictFind, List.find?] at hf
  | cons a rest ih =>
    rw [dictFind_cons] at hf
    rw [removeKey_cons]
    by_cases hak : a.1 = k
    · rw [if_pos hak] at hf ⊢
      obtain rfl : a.2 = e := Option.some_injective _ hf
      exact ⟨rfl, by rw [cacheSizeSum_cons]; ring⟩
    · rw [if_neg hak] at hf ⊢
      obtain ⟨ihl, ihs⟩ := ih hf
      constructor
      · simp only [List.length_cons]
        omega
      · rw [cacheSizeSum_cons, cacheSizeSum_cons]
        omega

theorem acct_evictOldest : ∀ st : CacheState, cacheAcct st →
    cacheAcct (evictOldest st) ∧ (evictOldest st).cache.length ≤ st.cache.length := by
  rintro ⟨cache, stats⟩ ⟨h1, h2⟩
  cases cache with
  | nil => exact ⟨⟨h1, h2⟩, le_rfl⟩
  | cons a rest =>
    rw [cacheSizeSum_cons] at h2
    simp only [evictOldest, cacheAcct] at h1 h2 ⊢
    refine ⟨⟨?_, ?_⟩, ?_⟩
    · simp only [List.length_cons] at h1
      omega
    · omega
    · simp

theorem acct_evictCountFuel (cfg : CacheCfg) (n : ℕ) :
    ∀ st : CacheState, cacheAcct st →
      cacheAcct (evictCountFuel cfg n st) ∧
      (evictCountFuel cfg n st).cache.length ≤ st.cache.length := by
  induction n with
  | zero => exact fun st h => ⟨h, le_rfl⟩
  | succ n ih =>
    intro st h
    unfold evictCountFuel
    split
    · obtain ⟨he, hl⟩ := acct_evictOldest st h
      obtain ⟨ihe, ihl⟩ := ih _ he
      exact ⟨ihe, le_trans ihl hl⟩
    · exact ⟨h, le_rfl⟩

theorem bound_evictCountFuel (cfg : CacheCfg) (hme : 1 ≤ cfg.max_entries) :
    ∀ (n : ℕ) (st : CacheState), st.cache.length ≤ n →
      (evictCountFuel cfg n st).cache.length < cfg.max_entries := by
  intro n
  induction n with
  | zero =>
    intro st hlen
    have h0 : st.cache.length = 0 := Nat.le_zero.mp hlen
    unfold evictCountFuel
    omega
  | succ n ih =>
    intro st hlen
    unfold evictCountFuel
    split
    · next hcond =>
      apply ih
      rcases hcond with ⟨_, hne⟩
      cases hc : st.cache with
      | nil => exact absurd hc hne
      | cons a rest =>
        have : (evictOldest st).cache = rest := by
          unfold evictOldest
          rw [hc]
        rw [this]
        have := congrArg List.length hc
        simp at this
        omega
    · next hcond =>
      rw [not_and_or] at hcond
      rcases hcond with hlt | hne
      · omega
      · have hc : st.cache = [] := not_not.mp hne
        rw [hc]
        simpa using hme

theorem acct_evictSizeFuel (cfg : CacheCfg) (ns : ℕ) (n : ℕ) :
    ∀ st : CacheState, cacheAcct st →
      cacheAcct (evictSizeFuel cfg ns n st) ∧
      (evictSizeFuel cfg ns n st).cache.length ≤ st.cache.length := by
  induction n with
  | zero => exact fun st h => ⟨h, le_rfl⟩
  | succ n ih =>
    intro st h
    unfold evictSizeFuel
    split
    · obtain ⟨he, hl⟩ := acct_evictOldest st h
      obtain ⟨ihe, ihl⟩ := ih _ he
      exact ⟨ihe, le_trans ihl hl⟩
    · exact ⟨h, le_rfl⟩

theorem cacheWF_cacheSet (cfg : CacheCfg) (st : CacheState) (key value : String)
    (now : ℚ) (hme : 1 ≤ cfg.max_entries) (hwf : cacheWF cfg st) :
    cacheWF cfg (cacheSet cfg st key value now) := by
  obtain ⟨h1, h2, h3⟩ := hwf
  unfold cacheSet
  dsimp only
  set st1 : CacheState :=
    match dictFind st.cache key with
    | some old =>
      { cache := removeKey st.cache key
        stats := { st.stats with
          total_size_bytes := st.stats.total_size_bytes - old.size_bytes
          entry_count := st.stats.entry_count - 1 } }
    | none => st
    with hst1
  have hacct1 : cacheAcct st1 := by
    rw [hst1]
    cases hf : dictFind st.cache key with
    | none => exact ⟨h1, h2⟩
    | some old =>
      obtain ⟨hl, hs⟩ := removeKey_accounting st.cache key old hf
      refine ⟨?_, ?_⟩ <;> dsimp only <;> omega
  obtain ⟨hacct2, _⟩ := acct_evictCountFuel cfg st1.cache.length st1 hacct1
  have hbound2 := bound_evictCountFuel cfg hme st1.cache.length st1 le_rfl
  obtain ⟨hacct3, hlen3⟩ :=
    acct_evictSizeFuel cfg value.utf8ByteSize
      (evictCountFuel cfg st1.cache.length st1).cache.length
      (evictCountFuel cfg st1.cache.length st1) hacct2
  obtain ⟨ha1, ha2⟩ := hacct3
  refine ⟨?_, ?_, ?_⟩
  · dsimp only
    simp only [List.length_append, List.length_cons, List.length_nil]
    omega
  · dsimp only
    rw [cacheSizeSum_append, ha2, cacheSizeSum_cons, cacheSizeSum_nil]
    ring
  · dsimp only
    simp only [List.length_append, List.length_cons, List.length_nil]
    omega

theorem cacheWF_cacheGet (cfg : CacheCfg) (st : CacheState) (key : String) (now : ℚ)
    (hwf : cacheWF cfg st) : cacheWF cfg (cacheGet cfg st key now).2 := by
  obtain ⟨h1, h2, h3⟩ := hwf
  unfold cacheGet
  split
  · exact ⟨h1, h2, h3⟩
  · cases hf : dictFind st.cache key with
    | none => exact ⟨h1, h2, h3⟩
    | some e =>
      dsimp only
      obtain ⟨hl, hs⟩ := removeKey_accounting st.cache key e hf
      have hsub := (removeKey_sublist st.cache key).length_le
      split
      · unfold evictKey
        rw [hf]
        refine ⟨?_, ?_, ?_⟩ <;> dsimp only <;> omega
      · refine ⟨?_, ?_, ?_⟩
        · dsimp only
          simp only [List.length_append, List.length_cons, List.length_nil]
          omega
        · dsimp only
          rw [cacheSizeSum_append, cacheSizeSum_cons, cacheSizeSum_nil]
          dsimp only
          omega
        · dsimp only
          simp only [List.length_append, List.length_cons, List.length_nil]
          omega

theorem cacheWF_initial (cfg : CacheCfg) : cacheWF cfg ({} : CacheState) :=
  ⟨rfl, rfl, by simp⟩


/-! ## Claim theorems: cache plugin (C8, C10) -/

/-- C8. Cache accounting invariant: for every configuration with
`max_entries ≥ 1`, after any sequence of `get`, `post_load` and `clear`
operations from a freshly constructed plugin, `stats.entry_count` equals the
number of entries held, `stats.total_size_bytes` equals the sum of their
`size_bytes`, and the number of entries never exceeds `max_entries`. -/
theorem cache_accounting_invariant (cfg : CacheCfg) (md5hex : String → String)
    (ops : List CacheOp) (hme : 1 ≤ cfg.max_entries) :
    cacheWF cfg (runCacheOps cfg md5hex {} ops) := by
  have hrun : ∀ (l : List CacheOp) (st : CacheState), cacheWF cfg st →
      cacheWF cfg (runCacheOps cfg md5hex st l) := by
    intro l
    induction l with
    | nil => exact fun st h => h
    | cons op rest ih =>
      intro st h
      cases op with
      | get key now =>
        exact ih (cacheGet cfg st key now).2 (cacheWF_cacheGet cfg st key now h)
      | load layer content now =>
        refine ih (cachePostLoad cfg md5hex st layer content now) ?_
        unfold cachePostLoad
        split
        · exact cacheWF_cacheSet cfg st _ content now hme h
        · exact h
      | clear => exact ih ({} : CacheState) (cacheWF_initial cfg)
  exact hrun ops {} (cacheWF_initial cfg)

/-- Witness for C8: the default configuration and a concrete operation
sequence exercising a store, a hit, a miss, a clear and another store. -/
theorem cache_accounting_invariant_witness :
    1 ≤ CacheCfg.max_entries {} ∧
    cacheWF {} (runCacheOps {} (fun s => s) {}
      [CacheOp.load "core" "body text" 1, CacheOp.get "core:body text" 2,
       CacheOp.get "absent" 3, CacheOp.clear, CacheOp.load "a" "xy" 4]) :=
  ⟨by decide,
   cache_accounting_invariant {} (fun s => s)
     [CacheOp.load "core" "body text" 1, CacheOp.get "core:body text" 2,
      CacheOp.get "absent" 3, CacheOp.clear, CacheOp.load "a" "xy" 4]
     (by decide)⟩

/-- C10. Cache lookup statistics frame: while enabled, every `get` increments
exactly one of `stats.hits` or `stats.misses` by one and leaves the other
unchanged (hits exactly on a fresh hit, with a value returned; misses on
absence or TTL expiry, with `None` returned); while disabled, `get` returns
`None` and leaves every statistics field unchanged. -/
theorem cacheGet_stats_frame (cfg : CacheCfg) (st : CacheState) (key : String)
    (now : ℚ) :
    (cfg.enabled = true →
      (((cacheGet cfg st key now).2.stats.hits = st.stats.hits + 1 ∧
        (cacheGet cfg st key now).2.stats.misses = st.stats.misses ∧
        (cacheGet cfg st key now).1.isSome = true) ∨
       ((cacheGet cfg st key now).2.stats.misses = st.stats.misses + 1 ∧
        (cacheGet cfg st key now).2.stats.hits = st.stats.hits ∧
        (cacheGet cfg st key now).1 = none))) ∧
    (cfg.enabled = false →
      (cacheGet cfg st key now).1 = none ∧
      (cacheGet cfg st key now).2.stats = st.stats) := by
  constructor
  · intro he
    unfold cacheGet
    rw [if_neg (by simp [he] : ¬ cfg.enabled = false)]
    cases hf : dictFind st.cache key with
    | none => exact Or.inr ⟨rfl, rfl, rfl⟩
    | some e =>
      dsimp only
      split
      · refine Or.inr ⟨?_, ?_, rfl⟩
        · unfold evictKey
          rw [hf]
        · unfold evictKey
          rw [hf]
      · exact Or.inl ⟨rfl, rfl, rfl⟩
  · intro he
    unfold cacheGet
    simp [he]

/-- Disabled-cache fixture for the C10 witness. -/
def cfgDisabled : CacheCfg := { enabled := false }

/-- Witness for C10: a concrete enabled lookup (a miss on the empty cache)
and a concrete disabled lookup. -/
theorem cacheGet_stats_frame_witness :
    ((((cacheGet {} {} "k" 0).2.stats.hits = CacheStats.hits {} + 1 ∧
       (cacheGet {} {} "k" 0).2.stats.misses = CacheStats.misses {} ∧
       (cacheGet {} {} "k" 0).1.isSome = true) ∨
      ((cacheGet {} {} "k" 0).2.stats.misses = CacheStats.misses {} + 1 ∧
       (cacheGet {} {} "k" 0).2.stats.hits = CacheStats.hits {} ∧
       (cacheGet {} {} "k" 0).1 = none))) ∧
    ((cacheGet cfgDisabled {} "k" 0).1 = none ∧
     (cacheGet cfgDisabled {} "k" 0).2.stats = CacheStats.mk 0 0 0 0 0) :=
  ⟨(cacheGet_stats_frame {} {} "k" 0).1 rfl,
   (cacheGet_stats_frame cfgDisabled {} "k" 0).2 rfl⟩


/-! ## Lemmas about dictSet, and the loader fingerprint cache (C1) -/

theorem keys_dictSet {β : Type} (m : List (String × β)) (k : String) (v : β) :
    (dictSet m k v).map Prod.fst =
      if dictHas m k then m.map Prod.fst else m.map Prod.fst ++ [k] := by
  induction m with
  | nil => simp [dictSet, dictHas]
  | cons a rest ih =>
    rw [dictSet_cons, dictHas_cons]
    by_cases hak : a.1 = k
    · simp [hak]
    · simp only [hak, decide_eq_true_eq, Bool.false_or, if_neg hak]
      by_cases hh : dictHas rest k
      · simp [hak, hh, ih]
      · simp [hak, hh, ih]

theorem length_dictSet {β : Type} (m : List (String × β)) (k : String) (v : β) :
    (dictSet m k v).length = if dictHas m k then m.length else m.length + 1 := by
  have h := congrArg List.length (keys_dictSet m k v)
  simp only [List.length_map] at h
  rw [h]
  by_cases hh : dictHas m k
  · simp [hh]
  · simp [hh]

theorem dictFind_dictSet {β : Type} (m : List (String × β)) (k : String) (v : β) :
    dictFind (dictSet m k v) k = some v := by
  induction m with
  | nil => simp [dictSet, dictFind, List.find?]
  | cons a rest ih =>
    rw [dictSet_cons]
    by_cases hak : a.1 = k
    · rw [if_pos hak, dictFind_cons, if_pos rfl]
    · rw [if_neg hak, dictFind_cons, if_neg hak]
      exact ih

theorem mem_dictSet {β : Type} (m : List (String × β)) (k : String) (v : β)
    (p : String × β) (hp : p ∈ dictSet m k v) : p = (k, v) ∨ p ∈ m := by
  induction m with
  | nil => simpa [dictSet] using hp
  | cons a rest ih =>
    rw [dictSet_cons] at hp
    by_cases hak : a.1 = k
    · rw [if_pos hak] at hp
      rcases List.mem_cons.mp hp with he | hm
      · exact Or.inl he
      · exact Or.inr (List.mem_cons_of_mem a hm)
    · rw [if_neg hak] at hp
      rcases List.mem_cons.mp hp with he | hm
      · exact Or.inr (he ▸ List.mem_cons_self a rest)
      · rcases ih hm with h1 | h2
        · exact Or.inl h1
        · exact Or.inr (List.mem_cons_of_mem a h2)

theorem dictHas_eq_isSome {β : Type} (m : List (String × β)) (k : String) :
    dictHas m k = (dictFind m k).isSome := by
  induction m with
  | nil => rfl
  | cons a rest ih =>
    rw [dictHas_cons, dictFind_cons]
    by_cases hak : a.1 = k
    · simp [hak]
    · simp [hak, ih]

theorem fpWF_dictSet (h : String → String) (st : List (String × FpEntry))
    (path c : String) (hwf : fpWF h st) :
    fpWF h (dictSet st path (FpEntry.mk c (h c))) := by
  obtain ⟨hnd, hcons⟩ := hwf
  constructor
  · rw [keys_dictSet]
    by_cases hh : dictHas st path
    · simpa [hh] using hnd
    · have hk : path ∉ st.map Prod.fst := fun hm => by
        simp [(dictHas_iff st path).2 hm] at hh
      simp [hh, List.nodup_append, hnd, hk]
  · intro p hp
    rcases mem_dictSet st path (FpEntry.mk c (h c)) p hp with he | hm
    · rw [he]
    · exact hcons p hm

/-- C1. Cache freshness (modelled from the spec, as the loader fingerprint
cache is absent from src): for a well-formed cache and an injective
fingerprint function, fetching a path whose file exists on disk always
returns the current on-disk content — a stale cached body is never returned —
and afterwards the cache holds exactly one entry for the path, carrying that
content and its fingerprint: the entry is replaced in place, never appended,
so the cache grows only when the path was not cached at all. -/
theorem cache_freshness (h : String → String) (disk : String → Option String)
    (st : List (String × FpEntry)) (path c : String)
    (hinj : Function.Injective h) (hwf : fpWF h st) (hdisk : disk path = some c) :
    (fetchFile h disk st path).1 = some c ∧
    dictFind (fetchFile h disk st path).2 path = some (FpEntry.mk c (h c)) ∧
    fpWF h (fetchFile h disk st path).2 ∧
    (fetchFile h disk st path).2.length =
      (if dictHas st path then st.length else st.length + 1) := by
  unfold fetchFile
  rw [hdisk]
  cases hfind : dictFind st path with
  | some e =>
    have hhas : dictHas st path = true := by
      rw [dictHas_eq_isSome, hfind]
      rfl
    have hfp : e.fp = h e.body := by
      cases hf2 : st.find? (fun p => p.1 == path) with
      | none =>
        unfold dictFind at hfind
        rw [hf2] at hfind
        simp at hfind
      | some q =>
        unfold dictFind at hfind
        rw [hf2] at hfind
        have hqe : q.2 = e := by simpa using hfind
        have hq : q ∈ st := List.mem_of_find?_eq_some hf2
        rw [← hqe]
        exact hwf.2 q hq
    dsimp only
    by_cases hmatch : h c = e.fp
    · rw [if_pos hmatch]
      have hbody : e.body = c := by
        apply hinj
        rw [← hfp, hmatch]
      have he2 : e = FpEntry.mk c (h c) := by
        cases e with
        | mk b f =>
          simp only at hbody hfp
          rw [hbody] at hfp ⊢
          rw [hfp]
      refine ⟨by rw [hbody], by rw [hfind, he2], hwf, by rw [if_pos hhas]⟩
    · rw [if_neg hmatch]
      refine ⟨rfl, dictFind_dictSet st path _, fpWF_dictSet h st path c hwf, ?_⟩
      rw [length_dictSet, if_pos hhas]
  | none =>
    have hhas : dictHas st path = false := by
      rw [dictHas_eq_isSome, hfind]
      rfl
    dsimp only
    refine ⟨rfl, dictFind_dictSet st path _, fpWF_dictSet h st path c hwf, ?_⟩
    rw [length_dictSet, if_neg (by rw [hhas]; exact Bool.false_ne_true)]

/-- Witness for C1: a concrete identity fingerprint, one-entry cache and a
disk whose content for the path has changed since the entry was captured. -/
theorem cache_freshness_witness :
    (fetchFile (fun s => s) (fun _ => some "new body")
        [("p.md", FpEntry.mk "old body" "old body")] "p.md").1 = some "new body" ∧
    dictFind (fetchFile (fun s => s) (fun _ => some "new body")
        [("p.md", FpEntry.mk "old body" "old body")] "p.md").2 "p.md" =
      some (FpEntry.mk "new body" "new body") ∧
    (fetchFile (fun s => s) (fun _ => some "new body")
        [("p.md", FpEntry.mk "old body" "old body")] "p.md").2.length = 1 := by
  have h := cache_freshness (fun s => s) (fun _ => some "new body")
    [("p.md", FpEntry.mk "old body" "old body")] "p.md" "new body"
    (fun a b hab => hab) ⟨by decide, by decide⟩ rfl
  exact ⟨h.1, h.2.1, h.2.2.2⟩


/-! ## Claim theorem: circuit breaker isolation (C2) -/

theorem cbAttempt_open_skip (cfg : CBConfig) (st : CBState) (now : ℚ)
    (cache : Option String) (ok : Bool) (hm : st.mode = CBMode.opened)
    (hcool : now < st.openedAt + cfg.cooldown) :
    cbAttempt cfg st now cache ok = CBStep.mk
      (match cache with
       | some b => CBOutcome.fromCache b
       | none => CBOutcome.circuitOpenError) st 0 := by
  unfold cbAttempt
  rw [if_pos ⟨hm, hcool⟩]

/-- C2. Circuit breaker isolation (modelled from the spec, as the breaker is
absent from src): a failure in CLOSED whose consecutive-failure count reaches
the configured threshold opens the breaker at the failure instant; and from
an OPEN breaker, every attempt made before the cooldown window has elapsed
performs zero real fetch attempts, leaves the breaker unchanged, and is
satisfied from cache when one is available, else recorded as the soft
circuit-open error. -/
theorem circuit_breaker_isolation (cfg : CBConfig) (st : CBState) (now : ℚ)
    (cache : Option String) :
    (st.mode = CBMode.closed → cfg.threshold ≤ st.failures + 1 →
      (cbAttempt cfg st now cache false).state =
        CBState.mk CBMode.opened (st.failures + 1) now ∧
      (cbAttempt cfg st now cache false).realAttempts = 1) ∧
    (∀ ts : List (ℚ × Option String × Bool), st.mode = CBMode.opened →
      (∀ x ∈ ts, x.1 < st.openedAt + cfg.cooldown) →
      (cbRun cfg st ts).1 = st ∧
      (cbRun cfg st ts).2.1 = 0 ∧
      (cbRun cfg st ts).2.2 = ts.map (fun x =>
        match x.2.1 with
        | some b => CBOutcome.fromCache b
        | none => CBOutcome.circuitOpenError)) := by
  constructor
  · intro hm hth
    unfold cbAttempt
    rw [if_neg (by
      rintro ⟨ho, _⟩
      rw [hm] at ho
      exact CBMode.noConfusion ho)]
    rw [if_neg (by
      rintro (ho | ho) <;> (rw [hm] at ho; exact CBMode.noConfusion ho))]
    dsimp only
    rw [if_pos hth]
    exact ⟨rfl, rfl⟩
  · intro ts hm
    induction ts with
    | nil => exact fun _ => ⟨rfl, rfl, rfl⟩
    | cons x rest ih =>
      intro hcool
      obtain ⟨t, cache2, ok2⟩ := x
      have hstep := cbAttempt_open_skip cfg st t cache2 ok2 hm
        (hcool (t, cache2, ok2) (List.mem_cons_self _ _))
      obtain ⟨ih1, ih2, ih3⟩ := ih (fun x hx => hcool x (List.mem_cons_of_mem _ hx))
      unfold cbRun
      rw [hstep]
      dsimp only
      exact ⟨ih1, by rw [ih2], by rw [List.map_cons, ih3]⟩

/-- Witness for C2 at the default threshold 3 and cooldown 30: a third
consecutive failure opens the breaker, and two later attempts inside the
cooldown window run zero real fetches, one falling back to the soft error
and one served from cache. -/
theorem circuit_breaker_isolation_witness :
    ((cbAttempt {} (CBState.mk CBMode.closed 2 0) 5 none false).state =
      CBState.mk CBMode.opened 3 5 ∧
     (cbAttempt {} (CBState.mk CBMode.closed 2 0) 5 none false).realAttempts = 1) ∧
    ((cbRun {} (CBState.mk CBMode.opened 3 0)
        [(5, none, true), (10, some "cached body", false)]).1 =
      CBState.mk CBMode.opened 3 0 ∧
     (cbRun {} (CBState.mk CBMode.opened 3 0)
        [(5, none, true), (10, some "cached body", false)]).2.1 = 0 ∧
     (cbRun {} (CBState.mk CBMode.opened 3 0)
        [(5, none, true), (10, some "cached body", false)]).2.2 =
       [CBOutcome.circuitOpenError, CBOutcome.fromCache "cached body"]) := by
  constructor
  · exact (circuit_breaker_isolation {} (CBState.mk CBMode.closed 2 0) 5 none).1
      rfl (by decide)
  · have h := (circuit_breaker_isolation {} (CBState.mk CBMode.opened 3 0) 0 none).2
      [(5, none, true), (10, some "cached body", false)] rfl
      (by intro x hx; fin_cases hx <;> norm_num)
    exact ⟨h.1, h.2.1, by rw [h.2.2]; rfl⟩

/-! ## Claim theorems: timeout budget allocator (C3) -/

theorem allocRun_assigned_le (deadline : ℚ) (fs : List FetchSpec) :
    ∀ (now s c : ℚ), FetchOutcome.assigned s c ∈ allocRun deadline now fs →
      c ≤ deadline - s := by
  induction fs with
  | nil =>
    intro now s c hmem
    simp [allocRun] at hmem
  | cons f fs ih =>
    intro now s c hmem
    unfold allocRun at hmem
    by_cases hrem : deadline - now ≤ 0
    · rw [if_pos hrem] at hmem
      rcases List.mem_cons.mp hmem with he | hm
      · exact FetchOutcome.noConfusion he
      · exact ih now s c hm
    · rw [if_neg hrem] at hmem
      dsimp only at hmem
      rcases List.mem_cons.mp hmem with he | hm
      · injection he with h1 h2
        subst h1
        subst h2
        exact min_le_left _ _
      · exact ih _ s c hm

/-- C3 counterexample: with a 100 ms deadline and three fetches of cap
2000 ms taking 1 ms, 1 ms and 0 ms, the fetches started strictly after time 0
are assigned ceilings 99 and 98, whose sum 197 exceeds `deadline - 0 = 100`:
the claimed bound on the sum of ceilings is false, because a fetch that
finishes below its ceiling leaves later fetches with ceilings that re-count
the same remaining budget. -/
theorem budget_sum_counterexample :
    ¬ (ceilSumAfter 0 (allocRun 100 0
        [FetchSpec.mk 2000 1, FetchSpec.mk 2000 1, FetchSpec.mk 2000 0]) ≤
      100 - 0) := by
  norm_num [allocRun, ceilSumAfter, min_def]

/-- C3 (amended). Budget conservation holds fetch-wise rather than for the
sum (modelled from the spec, as the allocator is absent from src): for every
time point t, each individual ceiling assigned to a fetch started strictly
after t is at most `deadline - t`, each ceiling being `min(remaining, cap)`
with `remaining = deadline - elapsed` recomputed before the fetch. -/
theorem budget_ceiling_amended (deadline t : ℚ) (fs : List FetchSpec) (s c : ℚ)
    (hmem : FetchOutcome.assigned s c ∈ allocRun deadline 0 fs) (ht : t < s) :
    c ≤ deadline - t := by
  have h1 := allocRun_assigned_le deadline fs 0 s c hmem
  linarith

/-- Witness for the amended C3: a 100 ms deadline and two fetches; the second
fetch starts at 1 ms (strictly after t = 0) with ceiling 50 ≤ 100. -/
theorem budget_ceiling_amended_witness :
    FetchOutcome.assigned 1 50 ∈
      allocRun 100 0 [FetchSpec.mk 2000 1, FetchSpec.mk 50 5] ∧
    (0 : ℚ) < 1 ∧ (50 : ℚ) ≤ 100 - 0 := by
  have hmem : FetchOutcome.assigned 1 50 ∈
      allocRun 100 0 [FetchSpec.mk 2000 1, FetchSpec.mk 50 5] := by
    norm_num [allocRun, min_def]
  exact ⟨hmem, by norm_num,
    budget_ceiling_amended 100 0 [FetchSpec.mk 2000 1, FetchSpec.mk 50 5] 1 50
      hmem (by norm_num)⟩

/-! ## Claim theorems: LoadResult well-formedness (C4) and load_framework
absence (C5) -/

/-- C4. LoadResult well-formedness: the LoadStatus enumeration (from
core/models.py) maps onto exactly the five strings success, partial,
fallback, timeout, error; and every result produced by the modelled loader
operations carries a status from that closed enumeration together with a
non-negative `duration_ms`, for any monotone pair of clock readings, errors
included. -/
theorem loadResult_wellformed :
    (∀ s : LoadStatus, s.toStr ∈ statusStrings) ∧
    (∀ (kb : String → Option String) (files : List String) (s e : ℚ), s ≤ e →
      (loadFiles kb files s e).status.toStr ∈ statusStrings ∧
      0 ≤ (loadFiles kb files s e).duration_ms) ∧
    (∀ (kb : String → Option String) (name : String) (s e : ℚ), s ≤ e →
      (loadFramework kb name s e).status.toStr ∈ statusStrings ∧
      0 ≤ (loadFramework kb name s e).duration_ms) := by
  have hdur : ∀ s e : ℚ, s ≤ e → 0 ≤ (⌊(e - s) * 1000⌋ : ℤ) := by
    intro s e hse
    have hmul : (0 : ℚ) ≤ (e - s) * 1000 :=
      mul_nonneg (by linarith) (by norm_num)
    exact Int.le_floor.mpr (by push_cast; linarith)
  refine ⟨?_, ?_, ?_⟩
  · intro s
    cases s <;> simp [LoadStatus.toStr, statusStrings]
  · intro kb files s e hse
    constructor
    · unfold loadFiles
      dsimp only
      split
      · simp [LoadStatus.toStr, statusStrings]
      · split <;> simp [LoadStatus.toStr, statusStrings]
    · exact hdur s e hse
  · intro kb name s e hse
    constructor
    · unfold loadFramework
      cases kb name <;> simp [LoadStatus.toStr, statusStrings]
    · unfold loadFramework
      cases kb name <;> exact hdur s e hse

/-- Witness for C4: the partial member of the enumeration, a load of one
missing file and a framework lookup, each on the clock interval 0..1. -/
theorem loadResult_wellformed_witness :
    LoadStatus.toStr LoadStatus.part ∈ statusStrings ∧
    ((loadFiles (fun _ => none) ["missing.md"] 0 1).status.toStr ∈ statusStrings ∧
     0 ≤ (loadFiles (fun _ => none) ["missing.md"] 0 1).duration_ms) ∧
    ((loadFramework (fun _ => none) "x" 0 1).status.toStr ∈ statusStrings ∧
     0 ≤ (loadFramework (fun _ => none) "x" 0 1).duration_ms) :=
  ⟨loadResult_wellformed.1 LoadStatus.part,
   loadResult_wellformed.2.1 (fun _ => none) ["missing.md"] 0 1 (by decide),
   loadResult_wellformed.2.2 (fun _ => none) "x" 0 1 (by decide)⟩

theorem strContainsSub_append (x y : String) : strContainsSub (x ++ y) y = true := by
  unfold strContainsSub
  rw [List.any_eq_true]
  refine ⟨y.data, ?_, ?_⟩
  · rw [List.mem_tails]
    exact ⟨x.data, (String.data_append x y).symm⟩
  · simp

/-- C5. load_framework absence handling (modelled from the spec, as the
loader is absent from src): when the named framework does not exist in the
knowledge base, `load_framework` returns — does not throw — a result whose
status is the error member and whose content contains the "not found"
marker; and this is the only modelled operation reporting absence that way:
`load` over any file list never produces an error status, missing files
included. -/
theorem load_framework_absence (kb : String → Option String) (name : String)
    (s e : ℚ) (habs : kb name = none) :
    (loadFramework kb name s e).status = LoadStatus.error ∧
    strContainsSub (loadFramework kb name s e).content "not found" = true ∧
    ∀ (files : List String) (s2 e2 : ℚ),
      (loadFiles kb files s2 e2).status ≠ LoadStatus.error := by
  refine ⟨?_, ?_, ?_⟩
  · unfold loadFramework
    rw [habs]
  · unfold loadFramework
    rw [habs]
    dsimp only
    exact strContainsSub_append ("Framework " ++ name ++ " ") "not found"
  · intro files s2 e2
    unfold loadFiles
    dsimp only
    split
    · simp
    · split <;> simp

/-- Witness for C5: an empty knowledge base; the framework lookup reports the
error status with the marker while a load of a missing file does not. -/
theorem load_framework_absence_witness :
    (loadFramework (fun _ => none) "nonexistent_framework" 0 1).status =
      LoadStatus.error ∧
    strContainsSub (loadFramework (fun _ => none) "nonexistent_framework" 0 1).content
      "not found" = true ∧
    (loadFiles (fun _ => none) ["missing.md"] 0 1).status ≠ LoadStatus.error := by
  have h := load_framework_absence (fun _ => none) "nonexistent_framework" 0 1 rfl
  exact ⟨h.1, h.2.1, h.2.2 ["missing.md"] 0 1⟩

end Sage
